import Mathlib

/-!
Verification of `elsa`'s `FrozenIndexSet` (src/index_set.rs): an append-only,
insertion-ordered unique-element container with interior mutability guarded by
a single-thread reentrancy flag.

Modelling choices (shallow embedding):

* The underlying `indexmap::IndexSet<T, S>` is the ordered-set collaborator of
  the spec (section 6).  It is modelled as the list of stored elements in
  insertion order.  Rust's `Eq`/`Hash` equivalence on elements (and the
  `Borrow<Q>` lookup keys) is modelled by a function `key : α → κ` into a type
  with decidable equality: two elements are equivalent iff they have the same
  key, and lookups take a key.  This keeps the distinction between a stored
  element and a *different but equivalent* value passed to a later insert.
* `StableDeref` is modelled by a function `deref : α → τ`: dereferencing a
  handle yields a target (address and content) fully determined by the handle
  value, independent of where the handle is stored.  A returned
  `&T::Target` is modelled as the value `deref e` of the stored element `e`.
* Every shared-access operation returns `Except σ (ρ × σ)`: `Except.ok (r, s)`
  is a normal return of `r` leaving memory state `s`, while `Except.error s`
  is a fatal abort (a Rust `assert!`/indexing panic) leaving memory state `s`
  behind.
-/

namespace Elsa

/-- State of a `FrozenIndexSet<T, S>` (src/index_set.rs, lines 17-25): the
contents of the `UnsafeCell<IndexSet<T, S>>` as a list in insertion order, and
the reentrancy flag held in the `Cell<bool>` field `in_use`. -/
structure FrozenIndexSet (α : Type) : Type where
  set : List α
  in_use : Bool
deriving DecidableEq, Repr

/-- Equality of operation outcomes is decidable, so concrete runs can be
checked by evaluation. -/
def exceptDecEq {ε β : Type} [DecidableEq ε] [DecidableEq β] :
    (a b : Except ε β) → Decidable (a = b)
  | Except.error x, Except.error y =>
    if h : x = y then Decidable.isTrue (by rw [h]) else Decidable.isFalse (by simp [h])
  | Except.error _, Except.ok _ => Decidable.isFalse (by simp)
  | Except.ok _, Except.error _ => Decidable.isFalse (by simp)
  | Except.ok x, Except.ok y =>
    if h : x = y then Decidable.isTrue (by rw [h]) else Decidable.isFalse (by simp [h])

instance {ε β : Type} [DecidableEq ε] [DecidableEq β] : DecidableEq (Except ε β) :=
  exceptDecEq

variable {α κ τ : Type} [DecidableEq κ]

/-- Position of the first element of `l` equivalent to key `k` (the index the
ordered-set collaborator associates to that key), if any. -/
def keyIdx (key : α → κ) : List α → κ → Option Nat
  | [], _ => none
  | a :: l, k => if key a = k then some 0 else (keyIdx key l k).map (· + 1)

/-- `IndexSet::get` of the ordered-set collaborator: the stored element
equivalent to `k`, if any. -/
def isGet (key : α → κ) : List α → κ → Option α
  | [], _ => none
  | a :: l, k => if key a = k then some a else isGet key l k

/-- `IndexSet::insert_full` of the ordered-set collaborator (spec section 6,
"insert-with-index"): if an equivalent element is already stored, return its
index and `false`, keeping the original element and dropping the new value;
otherwise append the value at index `len` and return `true`. -/
def isInsertFull (key : α → κ) (l : List α) (v : α) : Nat × Bool × List α :=
  match keyIdx key l (key v) with
  | some i => (i, false, l)
  | none => (l.length, true, l ++ [v])

/-- `IndexSet::get_full` of the ordered-set collaborator: index and stored
element equivalent to `k`, if any. -/
def isGetFull (key : α → κ) (l : List α) (k : κ) : Option (Nat × α) :=
  match keyIdx key l k with
  | some i => (l[i]?).map (fun e => (i, e))
  | none => none

/-- Equality of the ordered-set collaborator: same cardinality, and every
element of one side has an equivalent element on the other. -/
def isEqSet (key : α → κ) (l m : List α) : Bool :=
  (l.length == m.length) && l.all (fun e => m.any (fun f => decide (key f = key e)))

/-- Deserialization of the ordered-set collaborator from its serialized form
(a sequence of elements in insertion order, spec section 6): elements are
inserted left to right, collapsing duplicates. -/
def isDeserialize (key : α → κ) (l : List α) : List α :=
  l.foldl (fun acc v => (isInsertFull key acc v).2.2) []

/-- `FrozenIndexSet::insert` (lines 38-48): assert the reentrancy flag is
clear (else abort with memory untouched), set it, `insert_full` the value into
the interior set, index the result, clear the flag and return the target
reference of the element at the returned index. -/
def FrozenIndexSet.insert (key : α → κ) (deref : α → τ) (s : FrozenIndexSet α) (v : α) :
    Except (FrozenIndexSet α) (τ × FrozenIndexSet α) :=
  if s.in_use then Except.error s
  else
    let r := isInsertFull key s.set v
    match r.2.2[r.1]? with
    | some e => Except.ok (deref e, ⟨r.2.2, false⟩)
    | none => Except.error ⟨r.2.2, true⟩

/-- `FrozenIndexSet::insert_full` (lines 52-62): like `insert` but the
returned value also carries the element's index. -/
def FrozenIndexSet.insert_full (key : α → κ) (deref : α → τ) (s : FrozenIndexSet α) (v : α) :
    Except (FrozenIndexSet α) ((Nat × τ) × FrozenIndexSet α) :=
  if s.in_use then Except.error s
  else
    let r := isInsertFull key s.set v
    match r.2.2[r.1]? with
    | some e => Except.ok ((r.1, deref e), ⟨r.2.2, false⟩)
    | none => Except.error ⟨r.2.2, true⟩

/-- `FrozenIndexSet::get` (lines 91-104): assert the flag clear, set it, look
the key up in the interior set, clear the flag, return the target reference if
present. -/
def FrozenIndexSet.get (key : α → κ) (deref : α → τ) (s : FrozenIndexSet α) (k : κ) :
    Except (FrozenIndexSet α) (Option τ × FrozenIndexSet α) :=
  if s.in_use then Except.error s
  else Except.ok ((isGet key s.set k).map deref, ⟨s.set, false⟩)

/-- `FrozenIndexSet::get_full` (lines 106-119): like `get` but also returning
the index of the stored element. -/
def FrozenIndexSet.get_full (key : α → κ) (deref : α → τ) (s : FrozenIndexSet α) (k : κ) :
    Except (FrozenIndexSet α) (Option (Nat × τ) × FrozenIndexSet α) :=
  if s.in_use then Except.error s
  else Except.ok ((isGetFull key s.set k).map (fun p => (p.1, deref p.2)), ⟨s.set, false⟩)

/-- `FrozenIndexSet::get_index` (lines 121-130): positional lookup; out of
range yields `none` (no abort). -/
def FrozenIndexSet.get_index (deref : α → τ) (s : FrozenIndexSet α) (i : Nat) :
    Except (FrozenIndexSet α) (Option τ × FrozenIndexSet α) :=
  if s.in_use then Except.error s
  else Except.ok ((s.set[i]?).map deref, ⟨s.set, false⟩)

/-- `Index::index` for `FrozenIndexSet` (lines 158-170): positional indexing;
out of range panics inside the interior access, so the abort state still has
the reentrancy flag set. -/
def FrozenIndexSet.index (deref : α → τ) (s : FrozenIndexSet α) (i : Nat) :
    Except (FrozenIndexSet α) (τ × FrozenIndexSet α) :=
  if s.in_use then Except.error s
  else
    match s.set[i]? with
    | some e => Except.ok (deref e, ⟨s.set, false⟩)
    | none => Except.error ⟨s.set, true⟩

/-- `PartialEq::eq` for `FrozenIndexSet` (lines 188-199): both reentrancy
flags are asserted clear before either is set; then the interior sets are
compared and both flags cleared. -/
def FrozenIndexSet.feq (key : α → κ) (s t : FrozenIndexSet α) :
    Except (FrozenIndexSet α × FrozenIndexSet α) (Bool × FrozenIndexSet α × FrozenIndexSet α) :=
  if s.in_use then Except.error (s, t)
  else if t.in_use then Except.error (s, t)
  else Except.ok (isEqSet key s.set t.set, ⟨s.set, false⟩, ⟨t.set, false⟩)

/-- `Clone::clone` for `FrozenIndexSet` (lines 201-212): asserts the source
flag clear; the clone carries an equal interior set and a fresh `false` flag. -/
def FrozenIndexSet.clone (s : FrozenIndexSet α) :
    Except (FrozenIndexSet α) (FrozenIndexSet α × FrozenIndexSet α) :=
  if s.in_use then Except.error s
  else Except.ok (⟨s.set, false⟩, ⟨s.set, false⟩)

/-- `Serialize::serialize` for `FrozenIndexSet` (lines 214-230): asserts the
flag clear and emits exactly the interior ordered-set's serialized form (its
element sequence in insertion order). -/
def FrozenIndexSet.serialize (s : FrozenIndexSet α) :
    Except (FrozenIndexSet α) (List α × FrozenIndexSet α) :=
  if s.in_use then Except.error s
  else Except.ok (s.set, ⟨s.set, false⟩)

/-- `Serialize::serialize` with an explicit serializer: the interior set's
serializer may itself fail with a `Ser::Error`; the flag is still cleared
before that `Result` (of either kind) is returned (lines 226-228). -/
def FrozenIndexSet.serializeWith {ε β : Type} (inner : List α → Except ε β)
    (s : FrozenIndexSet α) :
    Except (FrozenIndexSet α) (Except ε β × FrozenIndexSet α) :=
  if s.in_use then Except.error s
  else Except.ok (inner s.set, ⟨s.set, false⟩)

/-- `Deserialize::deserialize` for `FrozenIndexSet` (lines 232-244): builds
the container from the deserialized ordered set via `From`, whose reentrancy
flag starts clear. -/
def FrozenIndexSet.deserialize (key : α → κ) (l : List α) : FrozenIndexSet α :=
  ⟨isDeserialize key l, false⟩

/-- `From<IndexSet<T, S>>` (lines 149-156): wrap an existing ordered set with
a clear reentrancy flag. -/
def FrozenIndexSet.fromSet (l : List α) : FrozenIndexSet α :=
  ⟨l, false⟩

/-- One shared-access operation on a container, for reasoning about arbitrary
sequences of calls. -/
inductive Op (α κ : Type) : Type where
  | insertOp (v : α)
  | insertFullOp (v : α)
  | getOp (k : κ)
  | getFullOp (k : κ)
  | getIndexOp (i : Nat)
  | indexOp (i : Nat)
deriving DecidableEq, Repr

/-- Memory state left behind by an operation, whether it returned or aborted. -/
def outState {ρ : Type} : Except (FrozenIndexSet α) (ρ × FrozenIndexSet α) → FrozenIndexSet α
  | Except.error s => s
  | Except.ok p => p.2

/-- Memory state after running one operation on `s`. -/
def stepOp (key : α → κ) (deref : α → τ) (s : FrozenIndexSet α) : Op α κ → FrozenIndexSet α
  | Op.insertOp v => outState (FrozenIndexSet.insert key deref s v)
  | Op.insertFullOp v => outState (FrozenIndexSet.insert_full key deref s v)
  | Op.getOp k => outState (FrozenIndexSet.get key deref s k)
  | Op.getFullOp k => outState (FrozenIndexSet.get_full key deref s k)
  | Op.getIndexOp i => outState (FrozenIndexSet.get_index deref s i)
  | Op.indexOp i => outState (FrozenIndexSet.index deref s i)

/-- Memory state after running a sequence of operations on `s`. -/
def runOps (key : α → κ) (deref : α → τ) (s : FrozenIndexSet α) (ops : List (Op α κ)) :
    FrozenIndexSet α :=
  ops.foldl (stepOp key deref) s

/-- A target reference `r` is valid in state `s` when it is the target of an
element the container currently owns. -/
def validRef (deref : α → τ) (s : FrozenIndexSet α) (r : τ) : Prop :=
  ∃ e ∈ s.set, r = deref e

/-! Basic lemmas about the ordered-set collaborator model. -/

theorem keyIdx_lt_length {key : α → κ} {l : List α} {k : κ} {i : Nat}
    (h : keyIdx key l k = some i) : i < l.length := by
  induction l generalizing i with
  | nil => simp [keyIdx] at h
  | cons a l ih =>
    rw [keyIdx] at h
    by_cases hka : key a = k
    · rw [if_pos hka] at h
      cases h
      simp
    · rw [if_neg hka] at h
      obtain ⟨j, hj, rfl⟩ := Option.map_eq_some'.mp h
      have := ih hj
      simp only [List.length_cons]
      omega

theorem keyIdx_getElem {key : α → κ} {l : List α} {k : κ} {i : Nat}
    (h : keyIdx key l k = some i) :
    ∃ e, l[i]? = some e ∧ key e = k ∧ isGet key l k = some e := by
  induction l generalizing i with
  | nil => simp [keyIdx] at h
  | cons a l ih =>
    rw [keyIdx] at h
    by_cases hka : key a = k
    · rw [if_pos hka] at h
      cases h
      exact ⟨a, by simp, hka, by rw [isGet, if_pos hka]⟩
    · rw [if_neg hka] at h
      obtain ⟨j, hj, rfl⟩ := Option.map_eq_some'.mp h
      obtain ⟨e, he1, he2, he3⟩ := ih hj
      exact ⟨e, by simpa using he1, he2, by rw [isGet, if_neg hka]; exact he3⟩

theorem keyIdx_none {key : α → κ} {l : List α} {k : κ} :
    keyIdx key l k = none ↔ ∀ e ∈ l, key e ≠ k := by
  induction l with
  | nil => simp [keyIdx]
  | cons a l ih =>
    rw [keyIdx]
    by_cases hka : key a = k
    · simp [hka, List.forall_mem_cons]
    · simp [hka, List.forall_mem_cons, Option.map_eq_none', ih]

theorem isGet_none {key : α → κ} {l : List α} {k : κ} :
    isGet key l k = none ↔ ∀ e ∈ l, key e ≠ k := by
  induction l with
  | nil => simp [isGet]
  | cons a l ih =>
    rw [isGet]
    by_cases hka : key a = k
    · simp [hka, List.forall_mem_cons]
    · simp [hka, List.forall_mem_cons, ih]

theorem isGet_some_mem {key : α → κ} {l : List α} {k : κ} {e : α}
    (h : isGet key l k = some e) : e ∈ l ∧ key e = k := by
  induction l with
  | nil => simp [isGet] at h
  | cons a l ih =>
    rw [isGet] at h
    by_cases hka : key a = k
    · rw [if_pos hka] at h
      cases h
      exact ⟨by simp, hka⟩
    · rw [if_neg hka] at h
      obtain ⟨h1, h2⟩ := ih h
      exact ⟨List.mem_cons_of_mem a h1, h2⟩

theorem isGet_some_of_mem {key : α → κ} {l : List α} {k : κ} {e : α}
    (he : e ∈ l) (hk : key e = k) : ∃ f, isGet key l k = some f := by
  cases hf : isGet key l k with
  | some f => exact ⟨f, rfl⟩
  | none => exact absurd hk (isGet_none.mp hf e he)

theorem isGet_append_some {key : α → κ} {l t : List α} {k : κ} {e : α}
    (h : isGet key l k = some e) : isGet key (l ++ t) k = some e := by
  induction l with
  | nil => simp [isGet] at h
  | cons a l ih =>
    rw [isGet] at h
    rw [List.cons_append, isGet]
    by_cases hka : key a = k
    · rw [if_pos hka] at h ⊢
      exact h
    · rw [if_neg hka] at h ⊢
      exact ih h

theorem keyIdx_some_of_isGet {key : α → κ} {l : List α} {k : κ} {e : α}
    (h : isGet key l k = some e) : ∃ i, keyIdx key l k = some i := by
  cases hi : keyIdx key l k with
  | some i => exact ⟨i, rfl⟩
  | none =>
    obtain ⟨h1, h2⟩ := isGet_some_mem h
    exact absurd h2 (keyIdx_none.mp hi e h1)

theorem isInsertFull_dup {key : α → κ} {l : List α} {v : α} {i : Nat}
    (h : keyIdx key l (key v) = some i) :
    isInsertFull key l v = (i, false, l) := by
  simp [isInsertFull, h]

theorem isInsertFull_fresh {key : α → κ} {l : List α} {v : α}
    (h : keyIdx key l (key v) = none) :
    isInsertFull key l v = (l.length, true, l ++ [v]) := by
  simp [isInsertFull, h]

theorem isInsertFull_extends (key : α → κ) (l : List α) (v : α) :
    ∃ t, (isInsertFull key l v).2.2 = l ++ t := by
  cases h : keyIdx key l (key v) with
  | some i => exact ⟨[], by simp [isInsertFull, h]⟩
  | none => exact ⟨[v], by simp [isInsertFull, h]⟩

theorem isInsertFull_idx_lt (key : α → κ) (l : List α) (v : α) :
    (isInsertFull key l v).1 < (isInsertFull key l v).2.2.length := by
  cases h : keyIdx key l (key v) with
  | some i =>
    simp only [isInsertFull_dup h]
    exact keyIdx_lt_length h
  | none =>
    simp only [isInsertFull_fresh h, List.length_append, List.length_cons,
      List.length_nil]
    omega

/-! Characterization of each shared-access operation on a quiescent container
(reentrancy flag clear), and of the reachable memory states. -/

theorem insert_spec (key : α → κ) (deref : α → τ) (s : FrozenIndexSet α) (v : α)
    (hu : s.in_use = false) :
    ∃ e, (isInsertFull key s.set v).2.2[(isInsertFull key s.set v).1]? = some e ∧
      FrozenIndexSet.insert key deref s v =
        Except.ok (deref e, ⟨(isInsertFull key s.set v).2.2, false⟩) := by
  have hlt := isInsertFull_idx_lt key s.set v
  cases he : (isInsertFull key s.set v).2.2[(isInsertFull key s.set v).1]? with
  | none =>
    have h2 := List.getElem?_eq_getElem hlt
    rw [he] at h2
    cases h2
  | some e =>
    refine ⟨e, rfl, ?_⟩
    simp only [FrozenIndexSet.insert, hu, Bool.false_eq_true, if_false, he]

theorem insert_full_spec (key : α → κ) (deref : α → τ) (s : FrozenIndexSet α) (v : α)
    (hu : s.in_use = false) :
    ∃ e, (isInsertFull key s.set v).2.2[(isInsertFull key s.set v).1]? = some e ∧
      FrozenIndexSet.insert_full key deref s v =
        Except.ok (((isInsertFull key s.set v).1, deref e),
          ⟨(isInsertFull key s.set v).2.2, false⟩) := by
  have hlt := isInsertFull_idx_lt key s.set v
  cases he : (isInsertFull key s.set v).2.2[(isInsertFull key s.set v).1]? with
  | none =>
    have h2 := List.getElem?_eq_getElem hlt
    rw [he] at h2
    cases h2
  | some e =>
    refine ⟨e, rfl, ?_⟩
    simp only [FrozenIndexSet.insert_full, hu, Bool.false_eq_true, if_false, he]

theorem get_spec (key : α → κ) (deref : α → τ) (s : FrozenIndexSet α) (k : κ)
    (hu : s.in_use = false) :
    FrozenIndexSet.get key deref s k =
      Except.ok ((isGet key s.set k).map deref, ⟨s.set, false⟩) := by
  simp [FrozenIndexSet.get, hu]

theorem get_full_spec (key : α → κ) (deref : α → τ) (s : FrozenIndexSet α) (k : κ)
    (hu : s.in_use = false) :
    FrozenIndexSet.get_full key deref s k =
      Except.ok ((isGetFull key s.set k).map (fun p => (p.1, deref p.2)),
        ⟨s.set, false⟩) := by
  simp [FrozenIndexSet.get_full, hu]

theorem get_index_spec (deref : α → τ) (s : FrozenIndexSet α) (i : Nat)
    (hu : s.in_use = false) :
    FrozenIndexSet.get_index deref s i =
      Except.ok ((s.set[i]?).map deref, ⟨s.set, false⟩) := by
  simp [FrozenIndexSet.get_index, hu]

theorem index_spec_hit {deref : α → τ} {s : FrozenIndexSet α} {i : Nat} {e : α}
    (hu : s.in_use = false) (he : s.set[i]? = some e) :
    FrozenIndexSet.index deref s i = Except.ok (deref e, ⟨s.set, false⟩) := by
  simp only [FrozenIndexSet.index, hu, Bool.false_eq_true, if_false, he]

theorem index_spec_oob {deref : α → τ} {s : FrozenIndexSet α} {i : Nat}
    (hu : s.in_use = false) (he : s.set[i]? = none) :
    FrozenIndexSet.index deref s i = Except.error ⟨s.set, true⟩ := by
  simp only [FrozenIndexSet.index, hu, Bool.false_eq_true, if_false, he]

theorem stepOp_extends (key : α → κ) (deref : α → τ) (s : FrozenIndexSet α) (o : Op α κ) :
    ∃ t, (stepOp key deref s o).set = s.set ++ t := by
  cases o with
  | insertOp v =>
    by_cases hu : s.in_use = true
    · exact ⟨[], by simp [stepOp, FrozenIndexSet.insert, hu, outState]⟩
    · obtain ⟨t, ht⟩ := isInsertFull_extends key s.set v
      obtain ⟨e, _, hok⟩ := insert_spec key deref s v (by simpa using hu)
      exact ⟨t, by simp [stepOp, hok, outState, ht]⟩
  | insertFullOp v =>
    by_cases hu : s.in_use = true
    · exact ⟨[], by simp [stepOp, FrozenIndexSet.insert_full, hu, outState]⟩
    · obtain ⟨t, ht⟩ := isInsertFull_extends key s.set v
      obtain ⟨e, _, hok⟩ := insert_full_spec key deref s v (by simpa using hu)
      exact ⟨t, by simp [stepOp, hok, outState, ht]⟩
  | getOp k =>
    by_cases hu : s.in_use = true
    · exact ⟨[], by simp [stepOp, FrozenIndexSet.get, hu, outState]⟩
    · exact ⟨[], by simp [stepOp, get_spec key deref s k (by simpa using hu), outState]⟩
  | getFullOp k =>
    by_cases hu : s.in_use = true
    · exact ⟨[], by simp [stepOp, FrozenIndexSet.get_full, hu, outState]⟩
    · exact ⟨[], by simp [stepOp, get_full_spec key deref s k (by simpa using hu), outState]⟩
  | getIndexOp i =>
    by_cases hu : s.in_use = true
    · exact ⟨[], by simp [stepOp, FrozenIndexSet.get_index, hu, outState]⟩
    · exact ⟨[], by simp [stepOp, get_index_spec deref s i (by simpa using hu), outState]⟩
  | indexOp i =>
    by_cases hu : s.in_use = true
    · exact ⟨[], by simp [stepOp, FrozenIndexSet.index, hu, outState]⟩
    · cases he : s.set[i]? with
      | some e =>
        exact ⟨[], by simp [stepOp, index_spec_hit (by simpa using hu) he, outState]⟩
      | none =>
        exact ⟨[], by simp [stepOp, index_spec_oob (by simpa using hu) he, outState]⟩

theorem runOps_cons (key : α → κ) (deref : α → τ) (s : FrozenIndexSet α) (o : Op α κ)
    (ops : List (Op α κ)) :
    runOps key deref s (o :: ops) = runOps key deref (stepOp key deref s o) ops := rfl

theorem runOps_extends (key : α → κ) (deref : α → τ) (s : FrozenIndexSet α)
    (ops : List (Op α κ)) : ∃ t, (runOps key deref s ops).set = s.set ++ t := by
  induction ops generalizing s with
  | nil => exact ⟨[], by simp [runOps]⟩
  | cons o ops ih =>
    obtain ⟨t1, h1⟩ := stepOp_extends key deref s o
    obtain ⟨t2, h2⟩ := ih (stepOp key deref s o)
    refine ⟨t1 ++ t2, ?_⟩
    rw [runOps_cons, h2, h1, List.append_assoc]

theorem runOps_getElem (key : α → κ) (deref : α → τ) {s : FrozenIndexSet α} {i : Nat}
    {e : α} (h : s.set[i]? = some e) (ops : List (Op α κ)) :
    (runOps key deref s ops).set[i]? = some e := by
  obtain ⟨t, ht⟩ := runOps_extends key deref s ops
  have hlt : i < s.set.length := by
    rcases List.getElem?_eq_some.mp h with ⟨hl, _⟩
    exact hl
  rw [ht, List.getElem?_append_left hlt]
  exact h

theorem runOps_isGet (key : α → κ) (deref : α → τ) {s : FrozenIndexSet α} {k : κ}
    {e : α} (h : isGet key s.set k = some e) (ops : List (Op α κ)) :
    isGet key (runOps key deref s ops).set k = some e := by
  obtain ⟨t, ht⟩ := runOps_extends key deref s ops
  rw [ht]
  exact isGet_append_some h

theorem isDeserialize_aux (key : α → κ) :
    ∀ (l acc : List α), ((acc ++ l).map key).Nodup →
      l.foldl (fun a v => (isInsertFull key a v).2.2) acc = acc ++ l := by
  intro l
  induction l with
  | nil =>
    intro acc _
    simp
  | cons v l ih =>
    intro acc h
    have h' : (((acc ++ [v]) ++ l).map key).Nodup := by
      rw [← List.append_cons]
      exact h
    have hfresh : keyIdx key acc (key v) = none := by
      rw [keyIdx_none]
      intro e he hk
      rw [List.map_append, List.map_cons] at h
      rcases List.nodup_append.mp h with ⟨_, _, hdisj⟩
      exact hdisj (hk ▸ List.mem_map_of_mem key he) (List.mem_cons_self _ _)
    have hstep : (isInsertFull key acc v).2.2 = acc ++ [v] := by
      rw [isInsertFull_fresh hfresh]
    simp only [List.foldl_cons]
    rw [hstep, ih (acc ++ [v]) h']
    simp

theorem isDeserialize_of_nodup (key : α → κ) {l : List α}
    (h : (l.map key).Nodup) : isDeserialize key l = l := by
  have := isDeserialize_aux key l [] (by simpa using h)
  simpa [isDeserialize] using this

theorem isEqSet_refl (key : α → κ) (l : List α) : isEqSet key l l = true := by
  rw [isEqSet]
  simp only [beq_self_eq_true, Bool.true_and, List.all_eq_true, List.any_eq_true]
  intro e he
  exact ⟨e, he, by simp⟩

/-! Claim theorems. -/

/-- C2: on a quiescent container, inserting a value equal (same key) to an
already-stored element leaves the interior set completely unchanged (so the
count and every existing index are unchanged) and returns the index of, and a
reference to the target of, the originally stored equal element — not the
newly passed value. -/
theorem elsa_c2_idempotent_insert (key : α → κ) (deref : α → τ)
    (s : FrozenIndexSet α) (v : α) (hu : s.in_use = false) {e0 : α}
    (hdup : isGet key s.set (key v) = some e0) :
    ∃ i, keyIdx key s.set (key v) = some i ∧ s.set[i]? = some e0 ∧
      FrozenIndexSet.insert_full key deref s v =
        Except.ok ((i, deref e0), ⟨s.set, false⟩) ∧
      FrozenIndexSet.insert key deref s v = Except.ok (deref e0, ⟨s.set, false⟩) := by
  obtain ⟨i, hi⟩ := keyIdx_some_of_isGet hdup
  obtain ⟨e, he1, he2, he3⟩ := keyIdx_getElem hi
  have hee : e = e0 := by
    rw [hdup] at he3
    exact (Option.some.injEq ..).mp he3.symm
  subst hee
  have hins : isInsertFull key s.set v = (i, false, s.set) := isInsertFull_dup hi
  obtain ⟨f, hf1, hf2⟩ := insert_full_spec key deref s v hu
  obtain ⟨g, hg1, hg2⟩ := insert_spec key deref s v hu
  rw [hins] at hf1 hf2 hg1 hg2
  have hfe : f = e := by
    rw [he1] at hf1
    exact (Option.some.injEq ..).mp hf1.symm
  have hge : g = e := by
    rw [he1] at hg1
    exact (Option.some.injEq ..).mp hg1.symm
  subst hfe
  subst hge
  exact ⟨i, hi, he1, hf2, hg2⟩

/-- C2 witness: a container holding the element (1, 10); inserting the equal
(same-key) value (1, 99) changes nothing and returns index 0 and the target
of the originally stored (1, 10). -/
theorem elsa_c2_idempotent_insert_witness :
    ∃ i, keyIdx Prod.fst [((1 : Nat), (10 : Nat))] 1 = some i ∧
      [((1 : Nat), (10 : Nat))][i]? = some (1, 10) ∧
      FrozenIndexSet.insert_full Prod.fst Prod.snd
          (⟨[(1, 10)], false⟩ : FrozenIndexSet (Nat × Nat)) (1, 99) =
        Except.ok ((i, 10), ⟨[(1, 10)], false⟩) ∧
      FrozenIndexSet.insert Prod.fst Prod.snd
          (⟨[(1, 10)], false⟩ : FrozenIndexSet (Nat × Nat)) (1, 99) =
        Except.ok (10, ⟨[(1, 10)], false⟩) :=
  elsa_c2_idempotent_insert Prod.fst Prod.snd ⟨[(1, 10)], false⟩ (1, 99) rfl rfl

/-- C3: invoking any shared-access operation (insertion, lookup, positional
access, equality, clone, serialization) while the container's reentrancy flag
is set aborts immediately (the entry `assert!` fails) rather than returning a
value. -/
theorem elsa_c3_reentrant_call_aborts (key : α → κ) (deref : α → τ)
    (s t : FrozenIndexSet α) (h : s.in_use = true) :
    (∀ v, ∃ a, FrozenIndexSet.insert key deref s v = Except.error a) ∧
    (∀ v, ∃ a, FrozenIndexSet.insert_full key deref s v = Except.error a) ∧
    (∀ k, ∃ a, FrozenIndexSet.get key deref s k = Except.error a) ∧
    (∀ k, ∃ a, FrozenIndexSet.get_full key deref s k = Except.error a) ∧
    (∀ i, ∃ a, FrozenIndexSet.get_index deref s i = Except.error a) ∧
    (∀ i, ∃ a, FrozenIndexSet.index deref s i = Except.error a) ∧
    (∃ a, FrozenIndexSet.feq key s t = Except.error a) ∧
    (∃ a, FrozenIndexSet.feq key t s = Except.error a) ∧
    (∃ a, FrozenIndexSet.clone s = Except.error a) ∧
    (∃ a, FrozenIndexSet.serialize s = Except.error a) := by
  refine ⟨fun v => ⟨s, ?_⟩, fun v => ⟨s, ?_⟩, fun k => ⟨s, ?_⟩, fun k => ⟨s, ?_⟩,
    fun i => ⟨s, ?_⟩, fun i => ⟨s, ?_⟩, ⟨(s, t), ?_⟩, ⟨(t, s), ?_⟩, ⟨s, ?_⟩, ⟨s, ?_⟩⟩ <;>
    simp [FrozenIndexSet.insert, FrozenIndexSet.insert_full, FrozenIndexSet.get,
      FrozenIndexSet.get_full, FrozenIndexSet.get_index, FrozenIndexSet.index,
      FrozenIndexSet.feq, FrozenIndexSet.clone, FrozenIndexSet.serialize, h]

/-- C3 witness: inserting into a container whose reentrancy flag is set
aborts. -/
theorem elsa_c3_reentrant_call_aborts_witness :
    ∃ a, FrozenIndexSet.insert Prod.fst Prod.snd
        (⟨[((1 : Nat), (10 : Nat))], true⟩ : FrozenIndexSet (Nat × Nat)) (2, 20) =
      Except.error a :=
  (elsa_c3_reentrant_call_aborts Prod.fst Prod.snd ⟨[(1, 10)], true⟩
    ⟨[], false⟩ rfl).1 (2, 20)

/-- C9: a reentrancy abort fires before the interior set is touched: the
aborting operation leaves the memory state (interior set and flag) exactly as
it was at the call. -/
theorem elsa_c9_abort_is_atomic (key : α → κ) (deref : α → τ)
    (s : FrozenIndexSet α) (h : s.in_use = true) :
    (∀ v, FrozenIndexSet.insert key deref s v = Except.error s) ∧
    (∀ v, FrozenIndexSet.insert_full key deref s v = Except.error s) ∧
    (∀ k, FrozenIndexSet.get key deref s k = Except.error s) ∧
    (∀ k, FrozenIndexSet.get_full key deref s k = Except.error s) ∧
    (∀ i, FrozenIndexSet.get_index deref s i = Except.error s) ∧
    (∀ i, FrozenIndexSet.index deref s i = Except.error s) := by
  refine ⟨fun v => ?_, fun v => ?_, fun k => ?_, fun k => ?_, fun i => ?_, fun i => ?_⟩ <;>
    simp [FrozenIndexSet.insert, FrozenIndexSet.insert_full, FrozenIndexSet.get,
      FrozenIndexSet.get_full, FrozenIndexSet.get_index, FrozenIndexSet.index, h]

/-- C9 witness: a reentrant `get_index` aborts leaving the state unchanged. -/
theorem elsa_c9_abort_is_atomic_witness :
    FrozenIndexSet.get_index Prod.snd
        (⟨[((1 : Nat), (10 : Nat))], true⟩ : FrozenIndexSet (Nat × Nat)) 5 =
      Except.error ⟨[(1, 10)], true⟩ :=
  (elsa_c9_abort_is_atomic Prod.fst Prod.snd ⟨[(1, 10)], true⟩ rfl).2.2.2.2.1 5

/-- C4: every shared-access operation verifies on entry that the reentrancy
flag is clear, and on every path on which it returns a value — including the
path on which the inner serializer fails with an error — it has cleared the
flag again: whenever an operation returns, the flag of every container it
touched is `false`. -/
theorem elsa_c4_flag_discipline {ε β : Type} (key : α → κ) (deref : α → τ)
    (s t : FrozenIndexSet α) (inner : List α → Except ε β) :
    (∀ v r s', FrozenIndexSet.insert key deref s v = Except.ok (r, s') →
      s.in_use = false ∧ s'.in_use = false) ∧
    (∀ v r s', FrozenIndexSet.insert_full key deref s v = Except.ok (r, s') →
      s.in_use = false ∧ s'.in_use = false) ∧
    (∀ k r s', FrozenIndexSet.get key deref s k = Except.ok (r, s') →
      s.in_use = false ∧ s'.in_use = false) ∧
    (∀ k r s', FrozenIndexSet.get_full key deref s k = Except.ok (r, s') →
      s.in_use = false ∧ s'.in_use = false) ∧
    (∀ i r s', FrozenIndexSet.get_index deref s i = Except.ok (r, s') →
      s.in_use = false ∧ s'.in_use = false) ∧
    (∀ i r s', FrozenIndexSet.index deref s i = Except.ok (r, s') →
      s.in_use = false ∧ s'.in_use = false) ∧
    (∀ b s' t', FrozenIndexSet.feq key s t = Except.ok (b, s', t') →
      s.in_use = false ∧ t.in_use = false ∧ s'.in_use = false ∧ t'.in_use = false) ∧
    (∀ c s', FrozenIndexSet.clone s = Except.ok (c, s') →
      s.in_use = false ∧ c.in_use = false ∧ s'.in_use = false) ∧
    (∀ out s', FrozenIndexSet.serialize s = Except.ok (out, s') →
      s.in_use = false ∧ s'.in_use = false) ∧
    (∀ out s', FrozenIndexSet.serializeWith inner s = Except.ok (out, s') →
      s.in_use = false ∧ s'.in_use = false) := by
  refine ⟨?_, ?_, ?_, ?_, ?_, ?_, ?_, ?_, ?_, ?_⟩
  · intro v r s' h
    by_cases hu : s.in_use = true
    · simp [FrozenIndexSet.insert, hu] at h
    · have hu' : s.in_use = false := by simpa using hu
      obtain ⟨e, he, hok⟩ := insert_spec key deref s v hu'
      rw [hok] at h
      simp only [Except.ok.injEq, Prod.mk.injEq] at h
      obtain ⟨-, h2⟩ := h
      exact ⟨hu', by rw [← h2]⟩
  · intro v r s' h
    by_cases hu : s.in_use = true
    · simp [FrozenIndexSet.insert_full, hu] at h
    · have hu' : s.in_use = false := by simpa using hu
      obtain ⟨e, he, hok⟩ := insert_full_spec key deref s v hu'
      rw [hok] at h
      simp only [Except.ok.injEq, Prod.mk.injEq] at h
      obtain ⟨-, h2⟩ := h
      exact ⟨hu', by rw [← h2]⟩
  · intro k r s' h
    by_cases hu : s.in_use = true
    · simp [FrozenIndexSet.get, hu] at h
    · have hu' : s.in_use = false := by simpa using hu
      rw [get_spec key deref s k hu'] at h
      simp only [Except.ok.injEq, Prod.mk.injEq] at h
      obtain ⟨-, h2⟩ := h
      exact ⟨hu', by rw [← h2]⟩
  · intro k r s' h
    by_cases hu : s.in_use = true
    · simp [FrozenIndexSet.get_full, hu] at h
    · have hu' : s.in_use = false := by simpa using hu
      rw [get_full_spec key deref s k hu'] at h
      simp only [Except.ok.injEq, Prod.mk.injEq] at h
      obtain ⟨-, h2⟩ := h
      exact ⟨hu', by rw [← h2]⟩
  · intro i r s' h
    by_cases hu : s.in_use = true
    · simp [FrozenIndexSet.get_index, hu] at h
    · have hu' : s.in_use = false := by simpa using hu
      rw [get_index_spec deref s i hu'] at h
      simp only [Except.ok.injEq, Prod.mk.injEq] at h
      obtain ⟨-, h2⟩ := h
      exact ⟨hu', by rw [← h2]⟩
  · intro i r s' h
    by_cases hu : s.in_use = true
    · simp [FrozenIndexSet.index, hu] at h
    · have hu' : s.in_use = false := by simpa using hu
      cases he : s.set[i]? with
      | some e =>
        rw [index_spec_hit hu' he] at h
        simp only [Except.ok.injEq, Prod.mk.injEq] at h
        obtain ⟨-, h2⟩ := h
        exact ⟨hu', by rw [← h2]⟩
      | none =>
        rw [index_spec_oob hu' he] at h
        cases h
  · intro b s' t' h
    by_cases hs : s.in_use = true
    · simp [FrozenIndexSet.feq, hs] at h
    · by_cases ht : t.in_use = true
      · simp [FrozenIndexSet.feq, hs, ht] at h
      · have hs' : s.in_use = false := by simpa using hs
        have ht' : t.in_use = false := by simpa using ht
        simp only [FrozenIndexSet.feq, hs', ht', Bool.false_eq_true, if_false,
          Except.ok.injEq, Prod.mk.injEq] at h
        obtain ⟨-, h2, h3⟩ := h
        exact ⟨hs', ht', by rw [← h2], by rw [← h3]⟩
  · intro c s' h
    by_cases hu : s.in_use = true
    · simp [FrozenIndexSet.clone, hu] at h
    · have hu' : s.in_use = false := by simpa using hu
      simp only [FrozenIndexSet.clone, hu', Bool.false_eq_true, if_false,
        Except.ok.injEq, Prod.mk.injEq] at h
      obtain ⟨h1, h2⟩ := h
      exact ⟨hu', by rw [← h1], by rw [← h2]⟩
  · intro out s' h
    by_cases hu : s.in_use = true
    · simp [FrozenIndexSet.serialize, hu] at h
    · have hu' : s.in_use = false := by simpa using hu
      simp only [FrozenIndexSet.serialize, hu', Bool.false_eq_true, if_false,
        Except.ok.injEq, Prod.mk.injEq] at h
      obtain ⟨-, h2⟩ := h
      exact ⟨hu', by rw [← h2]⟩
  · intro out s' h
    by_cases hu : s.in_use = true
    · simp [FrozenIndexSet.serializeWith, hu] at h
    · have hu' : s.in_use = false := by simpa using hu
      simp only [FrozenIndexSet.serializeWith, hu', Bool.false_eq_true, if_false,
        Except.ok.injEq, Prod.mk.injEq] at h
      obtain ⟨-, h2⟩ := h
      exact ⟨hu', by rw [← h2]⟩

/-- C4 witness: a completed lookup on a quiescent container started and ended
with the reentrancy flag clear (shown with an inner serializer present whose
result is an error, exercising the failure path as well). -/
theorem elsa_c4_flag_discipline_witness :
    ((⟨[((1 : Nat), (10 : Nat))], false⟩ : FrozenIndexSet (Nat × Nat)).in_use = false ∧
      (FrozenIndexSet.mk [((1 : Nat), (10 : Nat))] false).in_use = false) ∧
    ((⟨[((1 : Nat), (10 : Nat))], false⟩ : FrozenIndexSet (Nat × Nat)).in_use = false ∧
      (FrozenIndexSet.mk [((1 : Nat), (10 : Nat))] false).in_use = false) :=
  ⟨(elsa_c4_flag_discipline Prod.fst Prod.snd ⟨[(1, 10)], false⟩ ⟨[], false⟩
      (fun _ => (Except.error 0 : Except Nat Nat))).2.2.1
      1 (some 10) ⟨[(1, 10)], false⟩ (by decide),
    (elsa_c4_flag_discipline Prod.fst Prod.snd ⟨[(1, 10)], false⟩ ⟨[], false⟩
      (fun _ => (Except.error 0 : Except Nat Nat))).2.2.2.2.2.2.2.2.2
      (Except.error 0 : Except Nat Nat) ⟨[(1, 10)], false⟩ (by decide)⟩

/-- C6: on a quiescent container, the indexing operator aborts fatally on an
out-of-range position (leaving the flag set, since the panic fires inside the
guarded region) while `get_index` returns `none` without aborting; on an
in-range position both succeed with the same target. -/
theorem elsa_c6_positional_access (deref : α → τ) (s : FrozenIndexSet α) (i : Nat)
    (hu : s.in_use = false) :
    (s.set.length ≤ i →
      FrozenIndexSet.index deref s i = Except.error ⟨s.set, true⟩ ∧
      FrozenIndexSet.get_index deref s i = Except.ok (none, ⟨s.set, false⟩)) ∧
    (i < s.set.length →
      ∃ e, s.set[i]? = some e ∧
        FrozenIndexSet.index deref s i = Except.ok (deref e, ⟨s.set, false⟩) ∧
        FrozenIndexSet.get_index deref s i =
          Except.ok (some (deref e), ⟨s.set, false⟩)) := by
  constructor
  · intro hlen
    have hnone : s.set[i]? = none := List.getElem?_eq_none hlen
    refine ⟨index_spec_oob hu hnone, ?_⟩
    rw [get_index_spec deref s i hu, hnone]
    rfl
  · intro hlt
    cases hsome : s.set[i]? with
    | none =>
      have h2 := List.getElem?_eq_getElem hlt
      rw [hsome] at h2
      cases h2
    | some e =>
      refine ⟨e, rfl, index_spec_hit hu hsome, ?_⟩
      rw [get_index_spec deref s i hu, hsome]
      rfl

/-- C6 witness: on a one-element container, indexing at 5 aborts while
`get_index 5` returns `none`. -/
theorem elsa_c6_positional_access_witness :
    FrozenIndexSet.index Prod.snd
        (⟨[((1 : Nat), (10 : Nat))], false⟩ : FrozenIndexSet (Nat × Nat)) 5 =
      Except.error ⟨[(1, 10)], true⟩ ∧
    FrozenIndexSet.get_index Prod.snd
        (⟨[((1 : Nat), (10 : Nat))], false⟩ : FrozenIndexSet (Nat × Nat)) 5 =
      Except.ok (none, ⟨[(1, 10)], false⟩) :=
  (elsa_c6_positional_access Prod.snd ⟨[(1, 10)], false⟩ 5 rfl).1 (by decide)

/-- C10: on a quiescent container the indexing operator agrees with
`get_index` wherever both are defined: whenever `get_index i` returns a
target, indexing at `i` returns the same target and the same final state, and
whenever `get_index i` signals absence, indexing at `i` aborts. -/
theorem elsa_c10_index_refines_get_index (deref : α → τ) (s : FrozenIndexSet α)
    (hu : s.in_use = false) :
    (∀ i r s', FrozenIndexSet.get_index deref s i = Except.ok (some r, s') →
      FrozenIndexSet.index deref s i = Except.ok (r, s')) ∧
    (∀ i s', FrozenIndexSet.get_index deref s i = Except.ok (none, s') →
      ∃ a, FrozenIndexSet.index deref s i = Except.error a) := by
  constructor
  · intro i r s' h
    rw [get_index_spec deref s i hu] at h
    simp only [Except.ok.injEq, Prod.mk.injEq] at h
    obtain ⟨h1, h2⟩ := h
    obtain ⟨e, he, rfl⟩ := Option.map_eq_some'.mp h1
    rw [← h2]
    exact index_spec_hit hu he
  · intro i s' h
    rw [get_index_spec deref s i hu] at h
    simp only [Except.ok.injEq, Prod.mk.injEq] at h
    obtain ⟨h1, -⟩ := h
    have hnone : s.set[i]? = none := Option.map_eq_none'.mp h1
    exact ⟨⟨s.set, true⟩, index_spec_oob hu hnone⟩

/-- C10 witness: `get_index 0` on a one-element container returns the target
at index 0, and indexing at 0 returns the same target and state. -/
theorem elsa_c10_index_refines_get_index_witness :
    FrozenIndexSet.index Prod.snd
        (⟨[((1 : Nat), (10 : Nat))], false⟩ : FrozenIndexSet (Nat × Nat)) 0 =
      Except.ok (10, ⟨[(1, 10)], false⟩) :=
  (elsa_c10_index_refines_get_index Prod.snd ⟨[(1, 10)], false⟩ rfl).1
    0 10 ⟨[(1, 10)], false⟩ (by decide)

/-- C7: on a quiescent container, `get` returns the stored equal element's
target when the key is present (`get_full` additionally its index) and `none`
when absent, and in both cases leaves the interior ordered set completely
unchanged — nothing inserted, removed or reordered — with the flag clear. -/
theorem elsa_c7_lookup_no_side_effect (key : α → κ) (deref : α → τ)
    (s : FrozenIndexSet α) (k : κ) (hu : s.in_use = false) :
    ((∃ e ∈ s.set, key e = k) →
      ∃ e i, e ∈ s.set ∧ key e = k ∧ s.set[i]? = some e ∧
        FrozenIndexSet.get key deref s k = Except.ok (some (deref e), ⟨s.set, false⟩) ∧
        FrozenIndexSet.get_full key deref s k =
          Except.ok (some (i, deref e), ⟨s.set, false⟩)) ∧
    ((∀ e ∈ s.set, key e ≠ k) →
      FrozenIndexSet.get key deref s k = Except.ok (none, ⟨s.set, false⟩) ∧
      FrozenIndexSet.get_full key deref s k = Except.ok (none, ⟨s.set, false⟩)) := by
  constructor
  · rintro ⟨e0, he0, hk0⟩
    obtain ⟨f, hf⟩ := isGet_some_of_mem he0 hk0
    obtain ⟨i, hi⟩ := keyIdx_some_of_isGet hf
    obtain ⟨e, he1, he2, he3⟩ := keyIdx_getElem hi
    obtain ⟨hmem, hkey⟩ := isGet_some_mem he3
    refine ⟨e, i, hmem, hkey, he1, ?_, ?_⟩
    · rw [get_spec key deref s k hu, he3]
      rfl
    · rw [get_full_spec key deref s k hu]
      have hgf : isGetFull key s.set k = some (i, e) := by
        simp [isGetFull, hi, he1]
      rw [hgf]
      rfl
  · intro habs
    have hg : isGet key s.set k = none := isGet_none.mpr habs
    have hki : keyIdx key s.set k = none := keyIdx_none.mpr habs
    have hgf : isGetFull key s.set k = none := by rw [isGetFull, hki]
    constructor
    · rw [get_spec key deref s k hu, hg]
      rfl
    · rw [get_full_spec key deref s k hu, hgf]
      rfl

/-- C7 witness: on a container holding (1, 10) and (2, 20), looking key 2 up
finds the stored element and changes nothing. -/
theorem elsa_c7_lookup_no_side_effect_witness :
    ∃ e i, e ∈ [((1 : Nat), (10 : Nat)), (2, 20)] ∧ Prod.fst e = 2 ∧
      ([((1 : Nat), (10 : Nat)), (2, 20)] : List (Nat × Nat))[i]? = some e ∧
      FrozenIndexSet.get Prod.fst Prod.snd
          (⟨[(1, 10), (2, 20)], false⟩ : FrozenIndexSet (Nat × Nat)) 2 =
        Except.ok (some (Prod.snd e), ⟨[(1, 10), (2, 20)], false⟩) ∧
      FrozenIndexSet.get_full Prod.fst Prod.snd
          (⟨[(1, 10), (2, 20)], false⟩ : FrozenIndexSet (Nat × Nat)) 2 =
        Except.ok (some (i, Prod.snd e), ⟨[(1, 10), (2, 20)], false⟩) :=
  (elsa_c7_lookup_no_side_effect Prod.fst Prod.snd ⟨[(1, 10), (2, 20)], false⟩ 2 rfl).1
    ⟨(2, 20), by decide, rfl⟩

/-- C5: over any sequence of shared-access operations, the element count never
decreases, and every element already stored keeps its index and stays
retrievable by its key. -/
theorem elsa_c5_append_only (key : α → κ) (deref : α → τ) (s : FrozenIndexSet α)
    (ops : List (Op α κ)) :
    s.set.length ≤ (runOps key deref s ops).set.length ∧
    (∀ (i : Nat) (e : α), s.set[i]? = some e →
      (runOps key deref s ops).set[i]? = some e) ∧
    (∀ (k : κ) (e : α), isGet key s.set k = some e →
      isGet key (runOps key deref s ops).set k = some e) := by
  obtain ⟨t, ht⟩ := runOps_extends key deref s ops
  refine ⟨?_, ?_, ?_⟩
  · rw [ht, List.length_append]
    omega
  · intro i e h
    exact runOps_getElem key deref h ops
  · intro k e h
    exact runOps_isGet key deref h ops

/-- C5 witness: after two further insertions and a lookup, the element stored
at index 0 is still at index 0 and still found under its key. -/
theorem elsa_c5_append_only_witness :
    (runOps Prod.fst Prod.snd
        (⟨[((1 : Nat), (10 : Nat))], false⟩ : FrozenIndexSet (Nat × Nat))
        [Op.insertOp (2, 20), Op.insertFullOp (3, 30), Op.getOp 1]).set[0]? =
      some (1, 10) ∧
    isGet Prod.fst (runOps Prod.fst Prod.snd
        (⟨[((1 : Nat), (10 : Nat))], false⟩ : FrozenIndexSet (Nat × Nat))
        [Op.insertOp (2, 20), Op.insertFullOp (3, 30), Op.getOp 1]).set 1 =
      some (1, 10) :=
  ⟨(elsa_c5_append_only Prod.fst Prod.snd ⟨[(1, 10)], false⟩
      [Op.insertOp (2, 20), Op.insertFullOp (3, 30), Op.getOp 1]).2.1
      0 (1, 10) (by decide),
    (elsa_c5_append_only Prod.fst Prod.snd ⟨[(1, 10)], false⟩
      [Op.insertOp (2, 20), Op.insertFullOp (3, 30), Op.getOp 1]).2.2
      1 (1, 10) (by decide)⟩

/-- C8: serializing a quiescent container emits exactly its element sequence;
deserializing that sequence rebuilds a container with the same elements in
the same insertion order and a clear reentrancy flag, and the rebuilt
container compares equal to the original. (Any container built through the
ordered set has pairwise-distinct keys, the `Nodup` hypothesis.) -/
theorem elsa_c8_serialization_roundtrip (key : α → κ) (s : FrozenIndexSet α)
    (hu : s.in_use = false) (hnd : (s.set.map key).Nodup) :
    FrozenIndexSet.serialize s = Except.ok (s.set, ⟨s.set, false⟩) ∧
    FrozenIndexSet.deserialize key s.set = ⟨s.set, false⟩ ∧
    (FrozenIndexSet.deserialize key s.set).in_use = false ∧
    FrozenIndexSet.feq key (FrozenIndexSet.deserialize key s.set) s =
      Except.ok (true, ⟨s.set, false⟩, ⟨s.set, false⟩) := by
  have hdes : FrozenIndexSet.deserialize key s.set = ⟨s.set, false⟩ := by
    rw [FrozenIndexSet.deserialize, isDeserialize_of_nodup key hnd]
  refine ⟨by simp [FrozenIndexSet.serialize, hu], hdes, by rw [hdes], ?_⟩
  rw [hdes]
  simp [FrozenIndexSet.feq, hu, isEqSet_refl]

/-- C8 witness: the round trip on a two-element container returns it
unchanged, flag clear, comparing equal to the original. -/
theorem elsa_c8_serialization_roundtrip_witness :
    FrozenIndexSet.serialize
        (⟨[((1 : Nat), (10 : Nat)), (2, 20)], false⟩ : FrozenIndexSet (Nat × Nat)) =
      Except.ok ([(1, 10), (2, 20)], ⟨[(1, 10), (2, 20)], false⟩) ∧
    FrozenIndexSet.deserialize Prod.fst [((1 : Nat), (10 : Nat)), (2, 20)] =
      ⟨[(1, 10), (2, 20)], false⟩ ∧
    (FrozenIndexSet.deserialize Prod.fst [((1 : Nat), (10 : Nat)), (2, 20)]).in_use = false ∧
    FrozenIndexSet.feq Prod.fst
        (FrozenIndexSet.deserialize Prod.fst [((1 : Nat), (10 : Nat)), (2, 20)])
        ⟨[(1, 10), (2, 20)], false⟩ =
      Except.ok (true, ⟨[(1, 10), (2, 20)], false⟩, ⟨[(1, 10), (2, 20)], false⟩) :=
  elsa_c8_serialization_roundtrip Prod.fst ⟨[(1, 10), (2, 20)], false⟩ rfl (by decide)

theorem isGetFull_some {key : α → κ} {l : List α} {k : κ} {i : Nat} {e : α}
    (h : isGetFull key l k = some (i, e)) : l[i]? = some e := by
  cases hk : keyIdx key l k with
  | none => simp [isGetFull, hk] at h
  | some j =>
    simp only [isGetFull, hk] at h
    obtain ⟨e0, he0, hpe⟩ := Option.map_eq_some'.mp h
    simp only [Prod.mk.injEq] at hpe
    obtain ⟨hj, he⟩ := hpe
    rw [← hj, ← he]
    exact he0

/-- C1: every target reference an operation returns is the target of an
element the container owns at that point (hence dereferenceable, with the
content and target address determined by the immutable stored handle under
stable-deref), and it stays that way — for index-carrying returns, tied to
the same unchanged index — across any sequence of subsequent operations,
however many insertions they perform. -/
theorem elsa_c1_reference_stability (key : α → κ) (deref : α → τ)
    (s : FrozenIndexSet α) :
    (∀ (v : α) (r : τ) s', FrozenIndexSet.insert key deref s v = Except.ok (r, s') →
      validRef deref s' r) ∧
    (∀ (v : α) (i : Nat) (r : τ) s',
      FrozenIndexSet.insert_full key deref s v = Except.ok ((i, r), s') →
      ∃ e, s'.set[i]? = some e ∧ r = deref e) ∧
    (∀ (k : κ) (r : τ) s', FrozenIndexSet.get key deref s k = Except.ok (some r, s') →
      validRef deref s' r) ∧
    (∀ (k : κ) (i : Nat) (r : τ) s',
      FrozenIndexSet.get_full key deref s k = Except.ok (some (i, r), s') →
      ∃ e, s'.set[i]? = some e ∧ r = deref e) ∧
    (∀ (i : Nat) (r : τ) s',
      FrozenIndexSet.get_index deref s i = Except.ok (some r, s') →
      ∃ e, s'.set[i]? = some e ∧ r = deref e) ∧
    (∀ (i : Nat) (r : τ) s', FrozenIndexSet.index deref s i = Except.ok (r, s') →
      validRef deref s' r) ∧
    (∀ r, validRef deref s r → ∀ ops, validRef deref (runOps key deref s ops) r) ∧
    (∀ (i : Nat) (e : α), s.set[i]? = some e → ∀ ops,
      (runOps key deref s ops).set[i]? = some e) := by
  refine ⟨?_, ?_, ?_, ?_, ?_, ?_, ?_, ?_⟩
  · intro v r s' h
    by_cases hu : s.in_use = true
    · simp [FrozenIndexSet.insert, hu] at h
    · have hu' : s.in_use = false := by simpa using hu
      obtain ⟨e, he, hok⟩ := insert_spec key deref s v hu'
      rw [hok] at h
      simp only [Except.ok.injEq, Prod.mk.injEq] at h
      obtain ⟨h1, h2⟩ := h
      refine ⟨e, ?_, h1.symm⟩
      rw [← h2]
      exact List.getElem?_mem he
  · intro v i r s' h
    by_cases hu : s.in_use = true
    · simp [FrozenIndexSet.insert_full, hu] at h
    · have hu' : s.in_use = false := by simpa using hu
      obtain ⟨e, he, hok⟩ := insert_full_spec key deref s v hu'
      rw [hok] at h
      simp only [Except.ok.injEq, Prod.mk.injEq] at h
      obtain ⟨⟨hi, hr⟩, h2⟩ := h
      refine ⟨e, ?_, hr.symm⟩
      rw [← h2, ← hi]
      exact he
  · intro k r s' h
    by_cases hu : s.in_use = true
    · simp [FrozenIndexSet.get, hu] at h
    · have hu' : s.in_use = false := by simpa using hu
      rw [get_spec key deref s k hu'] at h
      simp only [Except.ok.injEq, Prod.mk.injEq] at h
      obtain ⟨h1, h2⟩ := h
      obtain ⟨e, he, hr⟩ := Option.map_eq_some'.mp h1
      obtain ⟨hmem, -⟩ := isGet_some_mem he
      refine ⟨e, ?_, hr.symm⟩
      rw [← h2]
      exact hmem
  · intro k i r s' h
    by_cases hu : s.in_use = true
    · simp [FrozenIndexSet.get_full, hu] at h
    · have hu' : s.in_use = false := by simpa using hu
      rw [get_full_spec key deref s k hu'] at h
      simp only [Except.ok.injEq, Prod.mk.injEq] at h
      obtain ⟨h1, h2⟩ := h
      obtain ⟨p, hp, hpr⟩ := Option.map_eq_some'.mp h1
      simp only [Prod.mk.injEq] at hpr
      obtain ⟨hj, hr⟩ := hpr
      have hpe : s.set[p.1]? = some p.2 := isGetFull_some (by rw [hp])
      refine ⟨p.2, ?_, hr.symm⟩
      rw [← h2, ← hj]
      exact hpe
  · intro i r s' h
    by_cases hu : s.in_use = true
    · simp [FrozenIndexSet.get_index, hu] at h
    · have hu' : s.in_use = false := by simpa using hu
      rw [get_index_spec deref s i hu'] at h
      simp only [Except.ok.injEq, Prod.mk.injEq] at h
      obtain ⟨h1, h2⟩ := h
      obtain ⟨e, he, hr⟩ := Option.map_eq_some'.mp h1
      refine ⟨e, ?_, hr.symm⟩
      rw [← h2]
      exact he
  · intro i r s' h
    by_cases hu : s.in_use = true
    · simp [FrozenIndexSet.index, hu] at h
    · have hu' : s.in_use = false := by simpa using hu
      cases he : s.set[i]? with
      | none =>
        rw [index_spec_oob hu' he] at h
        cases h
      | some e =>
        rw [index_spec_hit hu' he] at h
        simp only [Except.ok.injEq, Prod.mk.injEq] at h
        obtain ⟨h1, h2⟩ := h
        refine ⟨e, ?_, h1.symm⟩
        rw [← h2]
        exact List.getElem?_mem he
  · rintro r ⟨e, hmem, hr⟩ ops
    obtain ⟨t, ht⟩ := runOps_extends key deref s ops
    refine ⟨e, ?_, hr⟩
    rw [ht]
    exact List.mem_append_left t hmem
  · intro i e h ops
    exact runOps_getElem key deref h ops

/-- C1 witness: the reference returned by inserting (1, 10) into an empty
container is the target of the element stored at the returned index 0. -/
theorem elsa_c1_reference_stability_witness :
    ∃ e, (⟨[((1 : Nat), (10 : Nat))], false⟩ : FrozenIndexSet (Nat × Nat)).set[0]? =
        some e ∧ (10 : Nat) = Prod.snd e :=
  (elsa_c1_reference_stability Prod.fst Prod.snd ⟨[], false⟩).2.1
    (1, 10) 0 10 ⟨[(1, 10)], false⟩ (by decide)

end Elsa
